import Mathlib

/-!
Verification development for the knowledge-graph-platform repository.

The repository maintains a typed property graph (Neo4j) and serves two core
operations: idempotent ingestion of records into graph entities/relations, and
bounded subgraph retrieval.  The schema files (`init-schema.cypher`,
`ops/migrations/001_initial_schema.cypher`), the GraphQL facade
(`api/graphql/index.js`) and the operational script `ops/restore.sh` are
embedded from their sources.  The ingestion engine (`etl_engine.py`), the
retrieval engine (`graphrag_retrieval.py`) and the validation layer are listed
in the repository manifest but their sources are not available in this tree;
they are modelled from the specification, as marked in the doc comments below.
-/

namespace KG

/-- A typed entity node of the property graph: label (`typ`), natural key
`id`, a tag set (stored as a duplicate-free list) and further scalar
attributes as key/value pairs. -/
structure Node where
  typ : String
  id : String
  tags : List String
  attrs : List (String × String)
deriving Repr, DecidableEq

/-- A typed, directed relation between two entities, carrying the confidence
and observation bookkeeping described by the schema comments in
`init-schema.cypher` (`observed_at`, `confidence` in [0,1]) together with an
observation counter. -/
structure Relation where
  rtyp : String
  src : String
  tgt : String
  confidence : ℚ
  observed_at : Nat
  observations : Nat
deriving Repr, DecidableEq

/-- The graph store state: the node list and the relation list. -/
structure Store where
  nodes : List Node
  rels : List Relation
deriving Repr, DecidableEq

def emptyStore : Store := ⟨[], []⟩

def nodeCount (s : Store) : Nat := s.nodes.length

def relCount (s : Store) : Nat := s.rels.length

/-- A validated entity record as consumed by the ingestion engine. -/
structure EntityRecord where
  typ : String
  id : String
  tags : List String
  attrs : List (String × String)
deriving Repr, DecidableEq

/-- A validated relation record as consumed by the ingestion engine. -/
structure RelRecord where
  rtyp : String
  src : String
  tgt : String
  confidence : ℚ
  observed_at : Nat
deriving Repr, DecidableEq

/-- A raw record drawn from a job source: either an entity or a relation. -/
inductive Record where
  | entity (e : EntityRecord)
  | rel (r : RelRecord)
deriving Repr, DecidableEq

/-- Modelled from the spec: the Schema/Validation Layer
(`validate(record, mapping) -> ValidatedRecord | RejectionReason`, §4.1); the
source `config_schema.py` is not under the available tree.  Checks required
fields and that `confidence` is numeric in range; on failure returns a
specific reason string, never an exception. -/
def validate : Record → Option String
  | .entity e => if e.id = "" then some "missing_required_field" else none
  | .rel r =>
      if r.src = "" ∨ r.tgt = "" then some "missing_required_field"
      else if r.confidence < 0 ∨ 1 < r.confidence then some "confidence_out_of_range"
      else none

def nodeKeyMatches (typ id : String) (n : Node) : Bool :=
  n.typ == typ && n.id == id

def relKeyMatches (rtyp src tgt : String) (r : Relation) : Bool :=
  r.rtyp == rtyp && r.src == src && r.tgt == tgt

/-- Set union of tag lists: keep the old tags and append the genuinely new
ones, so the result stays duplicate-free when both inputs are. -/
def mergeTags (old new : List String) : List String :=
  old ++ new.filter (fun t => !(old.contains t))

/-- Attribute merge on re-ingestion: values for existing keys are overwritten
by the incoming record, new keys are appended. -/
def mergeAttrs (old new : List (String × String)) : List (String × String) :=
  old.map (fun p =>
      match new.find? (fun q => q.1 == p.1) with
      | some q => q
      | none => p)
    ++ new.filter (fun q => !(old.any (fun p => p.1 == q.1)))

/-- Merging an entity record into an existing node: `id` and `typ` are
immutable, tags are set-unioned, attributes merged. -/
def mergeNode (n : Node) (e : EntityRecord) : Node :=
  { n with tags := mergeTags n.tags e.tags, attrs := mergeAttrs n.attrs e.attrs }

def newNode (e : EntityRecord) : Node :=
  ⟨e.typ, e.id, e.tags, e.attrs⟩

/-- Modelled from the spec: upsert-by-natural-key for entities (§4.3 step 4,
`etl_engine.py` not under the available tree): match on `(type, id)`; if
found, merge attributes; if not found, create.  The boolean reports whether a
new node was created. -/
def upsertEntity (s : Store) (e : EntityRecord) : Store × Bool :=
  if s.nodes.any (nodeKeyMatches e.typ e.id) then
    ({ s with nodes := s.nodes.map (fun n =>
        if nodeKeyMatches e.typ e.id n then mergeNode n e else n) }, false)
  else
    ({ s with nodes := s.nodes ++ [newNode e] }, true)

/-- Merging a re-observation into an existing relation: confidence is raised
to the maximum of old and new (never lowered), `observed_at` is refreshed and
the observation counter is incremented. -/
def mergeRelation (old : Relation) (r : RelRecord) : Relation :=
  { old with
      confidence := max old.confidence r.confidence,
      observed_at := r.observed_at,
      observations := old.observations + 1 }

def newRelation (r : RelRecord) : Relation :=
  ⟨r.rtyp, r.src, r.tgt, r.confidence, r.observed_at, 1⟩

/-- Modelled from the spec: upsert-by-natural-key for relations (§4.3 step 4,
`etl_engine.py` not under the available tree): match on
`(type, source_id, target_id)`; if found, accumulate the observation instead
of creating a parallel duplicate edge; if not found, create with an
observation count of 1. -/
def upsertRelation (s : Store) (r : RelRecord) : Store × Bool :=
  if s.rels.any (relKeyMatches r.rtyp r.src r.tgt) then
    ({ s with rels := s.rels.map (fun x =>
        if relKeyMatches r.rtyp r.src r.tgt x then mergeRelation x r else x) }, false)
  else
    ({ s with rels := s.rels ++ [newRelation r] }, true)

/-- The ephemeral result of one ingestion run (§3 Job Report). -/
structure JobReport where
  accepted : Nat
  merged : Nat
  created : Nat
  rejected : List (String × String)
deriving Repr, DecidableEq

def emptyReport : JobReport := ⟨0, 0, 0, []⟩

def recordId : Record → String
  | .entity e => e.id
  | .rel r => r.src ++ "->" ++ r.tgt

/-- One step of the ingestion engine: validate the record; a rejection is
absorbed into the report, a valid record is upserted against the store. -/
def ingestStep (st : Store × JobReport) (rec : Record) : Store × JobReport :=
  match validate rec with
  | some reason =>
      (st.1, { st.2 with rejected := st.2.rejected ++ [(recordId rec, reason)] })
  | none =>
      match rec with
      | .entity e =>
          let p := upsertEntity st.1 e
          (p.1, { st.2 with
                    accepted := st.2.accepted + 1,
                    created := st.2.created + (if p.2 then 1 else 0),
                    merged := st.2.merged + (if p.2 then 0 else 1) })
      | .rel r =>
          let p := upsertRelation st.1 r
          (p.1, { st.2 with
                    accepted := st.2.accepted + 1,
                    created := st.2.created + (if p.2 then 1 else 0),
                    merged := st.2.merged + (if p.2 then 0 else 1) })

/-- Modelled from the spec: the Ingestion Engine
(`ingest(jobConfig) -> JobReport`, §4.3; `etl_engine.py` not under the
available tree).  A deterministic source is abstracted as the list of records
it produces; every record is validated and, when valid, upserted by natural
key.  Batching and the bounded worker pool do not affect the per-record
upsert outcomes for a deterministic source and are not modelled. -/
def ingest (recs : List Record) (s : Store) : Store × JobReport :=
  recs.foldl ingestStep (s, emptyReport)

def hasNodeKey (s : Store) (typ id : String) : Bool :=
  s.nodes.any (nodeKeyMatches typ id)

def hasRelKey (s : Store) (rtyp src tgt : String) : Bool :=
  s.rels.any (relKeyMatches rtyp src tgt)

/-- Whether the natural key of a record is already present in the store. -/
def keyPresent (s : Store) : Record → Bool
  | .entity e => hasNodeKey s e.typ e.id
  | .rel r => hasRelKey s r.rtyp r.src r.tgt

/-- The number of records of a source that pass validation; depends on the
records only, not on the store. -/
def acceptedCount : List Record → Nat
  | [] => 0
  | rec :: rest => (if validate rec = none then 1 else 0) + acceptedCount rest

/-- The rejection list produced from a source; depends on the records only. -/
def rejectedList : List Record → List (String × String)
  | [] => []
  | rec :: rest =>
      (match validate rec with
       | some reason => [(recordId rec, reason)]
       | none => []) ++ rejectedList rest

def findRel (s : Store) (rtyp src tgt : String) : Option Relation :=
  s.rels.find? (relKeyMatches rtyp src tgt)

/-- All stored relations have confidence within [0,1]. -/
def storeConfOk (s : Store) : Prop :=
  ∀ rel ∈ s.rels, 0 ≤ rel.confidence ∧ rel.confidence ≤ 1

theorem any_congr {α : Type} {l : List α} {p q : α → Bool}
    (h : ∀ a ∈ l, p a = q a) : l.any p = l.any q := by
  induction l with
  | nil => rfl
  | cons x xs ih =>
      simp only [List.any_cons]
      rw [h x (by simp), ih (fun a ha => h a (by simp [ha]))]

theorem nodeKeyMatches_mergeNode (typ id : String) (n : Node) (e : EntityRecord) :
    nodeKeyMatches typ id (mergeNode n e) = nodeKeyMatches typ id n := rfl

theorem relKeyMatches_mergeRelation (rtyp src tgt : String) (x : Relation) (r : RelRecord) :
    relKeyMatches rtyp src tgt (mergeRelation x r) = relKeyMatches rtyp src tgt x := rfl

theorem upsertEntity_rels (s : Store) (e : EntityRecord) :
    ((upsertEntity s e).1).rels = s.rels := by
  unfold upsertEntity
  split <;> rfl

theorem upsertRelation_nodes (s : Store) (r : RelRecord) :
    ((upsertRelation s r).1).nodes = s.nodes := by
  unfold upsertRelation
  split <;> rfl

theorem hasNodeKey_upsertEntity_mono (s : Store) (e : EntityRecord) (typ id : String)
    (h : hasNodeKey s typ id = true) :
    hasNodeKey ((upsertEntity s e).1) typ id = true := by
  unfold hasNodeKey at *
  unfold upsertEntity
  split
  · simp only [List.any_map]
    rw [any_congr (l := s.nodes)
        (p := (nodeKeyMatches typ id) ∘ (fun n => if nodeKeyMatches e.typ e.id n then mergeNode n e else n))
        (q := nodeKeyMatches typ id)]
    · exact h
    · intro a _
      by_cases hc : nodeKeyMatches e.typ e.id a = true
      · simp [hc, nodeKeyMatches_mergeNode]
      · simp [Bool.not_eq_true] at hc
        simp [hc]
  · simp only [List.any_append]
    simp [h]

theorem hasRelKey_upsertEntity (s : Store) (e : EntityRecord) (rtyp src tgt : String) :
    hasRelKey ((upsertEntity s e).1) rtyp src tgt = hasRelKey s rtyp src tgt := by
  unfold hasRelKey
  rw [upsertEntity_rels]

theorem hasNodeKey_upsertRelation (s : Store) (r : RelRecord) (typ id : String) :
    hasNodeKey ((upsertRelation s r).1) typ id = hasNodeKey s typ id := by
  unfold hasNodeKey
  rw [upsertRelation_nodes]

theorem hasRelKey_upsertRelation_mono (s : Store) (r : RelRecord) (rtyp src tgt : String)
    (h : hasRelKey s rtyp src tgt = true) :
    hasRelKey ((upsertRelation s r).1) rtyp src tgt = true := by
  unfold hasRelKey at *
  unfold upsertRelation
  split
  · simp only [List.any_map]
    rw [any_congr (l := s.rels)
        (p := (relKeyMatches rtyp src tgt) ∘ (fun x => if relKeyMatches r.rtyp r.src r.tgt x then mergeRelation x r else x))
        (q := relKeyMatches rtyp src tgt)]
    · exact h
    · intro a _
      by_cases hc : relKeyMatches r.rtyp r.src r.tgt a = true
      · simp [hc, relKeyMatches_mergeRelation]
      · simp [Bool.not_eq_true] at hc
        simp [hc]
  · simp only [List.any_append]
    simp [h]

theorem hasNodeKey_upsertEntity_self (s : Store) (e : EntityRecord) :
    hasNodeKey ((upsertEntity s e).1) e.typ e.id = true := by
  unfold upsertEntity
  split
  · next hfound =>
      have := hasNodeKey_upsertEntity_mono s e e.typ e.id hfound
      unfold upsertEntity at this
      rw [if_pos hfound] at this
      exact this
  · unfold hasNodeKey
    simp [List.any_append, newNode, nodeKeyMatches]

theorem hasRelKey_upsertRelation_self (s : Store) (r : RelRecord) :
    hasRelKey ((upsertRelation s r).1) r.rtyp r.src r.tgt = true := by
  unfold upsertRelation
  split
  · next hfound =>
      have := hasRelKey_upsertRelation_mono s r r.rtyp r.src r.tgt hfound
      unfold upsertRelation at this
      rw [if_pos hfound] at this
      exact this
  · unfold hasRelKey
    simp [List.any_append, newRelation, relKeyMatches]

theorem upsertEntity_found (s : Store) (e : EntityRecord)
    (h : hasNodeKey s e.typ e.id = true) :
    (upsertEntity s e).2 = false ∧
    ((upsertEntity s e).1).nodes.length = s.nodes.length := by
  unfold hasNodeKey at h
  unfold upsertEntity
  rw [if_pos h]
  simp

theorem upsertRelation_found (s : Store) (r : RelRecord)
    (h : hasRelKey s r.rtyp r.src r.tgt = true) :
    (upsertRelation s r).2 = false ∧
    ((upsertRelation s r).1).rels.length = s.rels.length := by
  unfold hasRelKey at h
  unfold upsertRelation
  rw [if_pos h]
  simp

theorem keyPresent_ingestStep_mono (s : Store) (rep : JobReport) (rec r0 : Record)
    (h : keyPresent s r0 = true) :
    keyPresent ((ingestStep (s, rep) rec).1) r0 = true := by
  cases hv : validate rec with
  | some reason => simpa [ingestStep, hv] using h
  | none =>
      cases rec with
      | entity e =>
          cases r0 with
          | entity e0 =>
              simp only [ingestStep, hv, keyPresent] at *
              exact hasNodeKey_upsertEntity_mono s e e0.typ e0.id h
          | rel q0 =>
              simp only [ingestStep, hv, keyPresent] at *
              rw [hasRelKey_upsertEntity]
              exact h
      | rel r =>
          cases r0 with
          | entity e0 =>
              simp only [ingestStep, hv, keyPresent] at *
              rw [hasNodeKey_upsertRelation]
              exact h
          | rel q0 =>
              simp only [ingestStep, hv, keyPresent] at *
              exact hasRelKey_upsertRelation_mono s r q0.rtyp q0.src q0.tgt h

theorem keyPresent_ingestStep_self (s : Store) (rep : JobReport) (rec : Record)
    (hv : validate rec = none) :
    keyPresent ((ingestStep (s, rep) rec).1) rec = true := by
  cases rec with
  | entity e =>
      simp only [ingestStep, hv, keyPresent]
      exact hasNodeKey_upsertEntity_self s e
  | rel r =>
      simp only [ingestStep, hv, keyPresent]
      exact hasRelKey_upsertRelation_self s r

theorem ingestStep_store_indep (s : Store) (rep rep' : JobReport) (rec : Record) :
    (ingestStep (s, rep) rec).1 = (ingestStep (s, rep') rec).1 := by
  cases hv : validate rec with
  | some reason => simp [ingestStep, hv]
  | none => cases rec <;> simp [ingestStep, hv]

theorem ingestStep_report (s : Store) (rep : JobReport) (rec : Record) :
    ((ingestStep (s, rep) rec).2).accepted = rep.accepted + (if validate rec = none then 1 else 0) ∧
    ((ingestStep (s, rep) rec).2).rejected = rep.rejected ++
      (match validate rec with
       | some reason => [(recordId rec, reason)]
       | none => []) := by
  cases hv : validate rec with
  | some reason => simp [ingestStep, hv]
  | none => cases rec <;> simp [ingestStep, hv]

theorem keyPresent_foldl_mono (recs : List Record) :
    ∀ (s : Store) (rep : JobReport) (r0 : Record), keyPresent s r0 = true →
    keyPresent ((recs.foldl ingestStep (s, rep)).1) r0 = true := by
  induction recs with
  | nil => intro s rep r0 h; simpa using h
  | cons rec rest ih =>
      intro s rep r0 h
      rw [List.foldl_cons]
      have h1 := keyPresent_ingestStep_mono s rep rec r0 h
      have h2 := ih (ingestStep (s, rep) rec).1 (ingestStep (s, rep) rec).2 r0 h1
      rwa [Prod.mk.eta] at h2

theorem ingest_establishes (recs : List Record) :
    ∀ (s : Store) (rep : JobReport) (rec : Record), rec ∈ recs → validate rec = none →
    keyPresent ((recs.foldl ingestStep (s, rep)).1) rec = true := by
  induction recs with
  | nil => intro s rep rec h; simp at h
  | cons r0 rest ih =>
      intro s rep rec hmem hv
      rw [List.foldl_cons]
      rcases List.mem_cons.mp hmem with heq | hmem2
      · subst heq
        have h1 := keyPresent_ingestStep_self s rep rec hv
        have h2 := keyPresent_foldl_mono rest (ingestStep (s, rep) rec).1
          (ingestStep (s, rep) rec).2 rec h1
        rwa [Prod.mk.eta] at h2
      · have h2 := ih (ingestStep (s, rep) r0).1 (ingestStep (s, rep) r0).2 rec hmem2 hv
        rwa [Prod.mk.eta] at h2

theorem ingestStep_present (s : Store) (rep : JobReport) (rec : Record)
    (h : validate rec = none → keyPresent s rec = true) :
    ((ingestStep (s, rep) rec).1).nodes.length = s.nodes.length ∧
    ((ingestStep (s, rep) rec).1).rels.length = s.rels.length ∧
    ((ingestStep (s, rep) rec).2).created = rep.created := by
  cases hv : validate rec with
  | some reason => simp [ingestStep, hv]
  | none =>
      have hk := h hv
      cases rec with
      | entity e =>
          have hf := upsertEntity_found s e (by simpa [keyPresent] using hk)
          refine ⟨?_, ?_, ?_⟩
          · simpa [ingestStep, hv] using hf.2
          · simp [ingestStep, hv, upsertEntity_rels]
          · simp [ingestStep, hv, hf.1]
      | rel r =>
          have hf := upsertRelation_found s r (by simpa [keyPresent] using hk)
          refine ⟨?_, ?_, ?_⟩
          · simp [ingestStep, hv, upsertRelation_nodes]
          · simpa [ingestStep, hv] using hf.2
          · simp [ingestStep, hv, hf.1]

theorem ingest_foldl_noop (recs : List Record) :
    ∀ (s : Store) (rep : JobReport),
    (∀ rec ∈ recs, validate rec = none → keyPresent s rec = true) →
    ((recs.foldl ingestStep (s, rep)).1).nodes.length = s.nodes.length ∧
    ((recs.foldl ingestStep (s, rep)).1).rels.length = s.rels.length ∧
    ((recs.foldl ingestStep (s, rep)).2).created = rep.created := by
  induction recs with
  | nil => intro s rep _; simp
  | cons rec rest ih =>
      intro s rep H
      rw [List.foldl_cons]
      have hstep := ingestStep_present s rep rec (H rec (by simp))
      have Hrest : ∀ rec2 ∈ rest, validate rec2 = none →
          keyPresent ((ingestStep (s, rep) rec).1) rec2 = true := by
        intro rec2 hmem hv2
        exact keyPresent_ingestStep_mono s rep rec rec2 (H rec2 (by simp [hmem]) hv2)
      have hrest := ih (ingestStep (s, rep) rec).1 (ingestStep (s, rep) rec).2 Hrest
      rw [Prod.mk.eta] at hrest
      exact ⟨by rw [hrest.1, hstep.1], by rw [hrest.2.1, hstep.2.1], by rw [hrest.2.2, hstep.2.2]⟩

theorem ingest_foldl_report (recs : List Record) :
    ∀ (s : Store) (rep : JobReport),
    ((recs.foldl ingestStep (s, rep)).2).accepted = rep.accepted + acceptedCount recs ∧
    ((recs.foldl ingestStep (s, rep)).2).rejected = rep.rejected ++ rejectedList recs := by
  induction recs with
  | nil => intro s rep; simp [acceptedCount, rejectedList]
  | cons rec rest ih =>
      intro s rep
      rw [List.foldl_cons]
      have hstep := ingestStep_report s rep rec
      have hrest := ih (ingestStep (s, rep) rec).1 (ingestStep (s, rep) rec).2
      rw [Prod.mk.eta] at hrest
      constructor
      · rw [hrest.1, hstep.1]
        simp [acceptedCount, Nat.add_assoc]
      · rw [hrest.2, hstep.2]
        simp [rejectedList, List.append_assoc]

/-- C1: Re-running the ingest operation with the same deterministic source
and mapping against an unchanged store is idempotent: the second run produces
a JobReport with zero new creations and the same accepted/rejected counts as
the first, and the store's node and edge counts are unchanged after the
second run. -/
theorem ingest_idempotent (recs : List Record) (s0 : Store) :
    ((ingest recs ((ingest recs s0).1)).2).created = 0 ∧
    ((ingest recs ((ingest recs s0).1)).2).accepted = ((ingest recs s0).2).accepted ∧
    ((ingest recs ((ingest recs s0).1)).2).rejected = ((ingest recs s0).2).rejected ∧
    nodeCount ((ingest recs ((ingest recs s0).1)).1) = nodeCount ((ingest recs s0).1) ∧
    relCount ((ingest recs ((ingest recs s0).1)).1) = relCount ((ingest recs s0).1) := by
  have hpresent : ∀ rec ∈ recs, validate rec = none →
      keyPresent ((ingest recs s0).1) rec = true := by
    intro rec hmem hv
    exact ingest_establishes recs s0 emptyReport rec hmem hv
  have hnoop := ingest_foldl_noop recs ((ingest recs s0).1) emptyReport hpresent
  have hrep1 := ingest_foldl_report recs s0 emptyReport
  have hrep2 := ingest_foldl_report recs ((ingest recs s0).1) emptyReport
  refine ⟨?_, ?_, ?_, ?_, ?_⟩
  · exact hnoop.2.2
  · show (recs.foldl ingestStep ((ingest recs s0).1, emptyReport)).2.accepted =
        (recs.foldl ingestStep (s0, emptyReport)).2.accepted
    rw [hrep2.1, hrep1.1]
  · show (recs.foldl ingestStep ((ingest recs s0).1, emptyReport)).2.rejected =
        (recs.foldl ingestStep (s0, emptyReport)).2.rejected
    rw [hrep2.2, hrep1.2]
  · exact hnoop.1
  · exact hnoop.2.1

/-- A record of the `ingest p1 tags a,b then p1 tags a,c` scenario. -/
def p1FirstRecord : Record := .entity ⟨"Project", "p1", ["a", "b"], []⟩

def p1SecondRecord : Record := .entity ⟨"Project", "p1", ["a", "c"], []⟩

/-- C7: Ingesting an entity record with an id already present for that type
merges attributes instead of creating a second node: after ingesting
`{id:"p1", type:"Project", tags:["a","b"]}` and then re-ingesting
`{id:"p1", type:"Project", tags:["a","c"]}`, exactly one Project node with id
"p1" exists and its tags set equals {a,b,c}. -/
theorem reingest_merges_tags :
    ((ingest [p1SecondRecord] ((ingest [p1FirstRecord] emptyStore).1)).1).nodes =
      [⟨"Project", "p1", ["a", "b", "c"], []⟩] ∧
    nodeCount ((ingest [p1SecondRecord] ((ingest [p1FirstRecord] emptyStore).1)).1) = 1 := by
  constructor <;> rfl

theorem validate_rel_conf (r : RelRecord) (hv : validate (Record.rel r) = none) :
    0 ≤ r.confidence ∧ r.confidence ≤ 1 := by
  simp only [validate] at hv
  split_ifs at hv with h1 h2
  push_neg at h2
  exact h2

theorem storeConfOk_upsertEntity (s : Store) (e : EntityRecord)
    (h : storeConfOk s) : storeConfOk ((upsertEntity s e).1) := by
  intro rel hmem
  rw [upsertEntity_rels] at hmem
  exact h rel hmem

theorem storeConfOk_upsertRelation (s : Store) (r : RelRecord)
    (hc : 0 ≤ r.confidence ∧ r.confidence ≤ 1)
    (h : storeConfOk s) : storeConfOk ((upsertRelation s r).1) := by
  intro rel hmem
  unfold upsertRelation at hmem
  split at hmem
  · simp only [List.mem_map] at hmem
    obtain ⟨x, hx, hrel⟩ := hmem
    by_cases hk : relKeyMatches r.rtyp r.src r.tgt x = true
    · rw [if_pos hk] at hrel
      subst hrel
      have hox := h x hx
      constructor
      · exact le_trans hox.1 (le_max_left _ _)
      · exact max_le hox.2 hc.2
    · rw [if_neg hk] at hrel
      subst hrel
      exact h x hx
  · simp only [List.mem_append, List.mem_singleton] at hmem
    rcases hmem with hold | hnew
    · exact h rel hold
    · subst hnew
      exact hc

theorem storeConfOk_foldl (recs : List Record) :
    ∀ (s : Store) (rep : JobReport), storeConfOk s →
    storeConfOk ((recs.foldl ingestStep (s, rep)).1) := by
  induction recs with
  | nil => intro s rep h; simpa using h
  | cons rec rest ih =>
      intro s rep h
      rw [List.foldl_cons]
      have hstep : storeConfOk ((ingestStep (s, rep) rec).1) := by
        cases hv : validate rec with
        | some reason => simpa [ingestStep, hv] using h
        | none =>
            cases rec with
            | entity e =>
                simpa [ingestStep, hv] using storeConfOk_upsertEntity s e h
            | rel r =>
                simpa [ingestStep, hv] using
                  storeConfOk_upsertRelation s r (validate_rel_conf r hv) h
      have h2 := ih (ingestStep (s, rep) rec).1 (ingestStep (s, rep) rec).2 hstep
      rwa [Prod.mk.eta] at h2

theorem find?_map_merge (r : RelRecord) (l : List Relation) (old : Relation)
    (h : l.find? (relKeyMatches r.rtyp r.src r.tgt) = some old) :
    (l.map (fun x =>
        if relKeyMatches r.rtyp r.src r.tgt x then mergeRelation x r else x)).find?
      (relKeyMatches r.rtyp r.src r.tgt) = some (mergeRelation old r) := by
  induction l with
  | nil => simp at h
  | cons x xs ih =>
      by_cases hk : relKeyMatches r.rtyp r.src r.tgt x = true
      · rw [List.find?_cons_of_pos _ hk] at h
        injection h with h
        subst h
        simp only [List.map_cons]
        rw [if_pos hk]
        exact List.find?_cons_of_pos _
          (by rw [relKeyMatches_mergeRelation]; exact hk)
      · rw [List.find?_cons_of_neg _ hk] at h
        simp only [List.map_cons]
        rw [if_neg hk]
        rw [List.find?_cons_of_neg _ hk]
        exact ih h

theorem hasRelKey_of_findRel (s : Store) (rtyp src tgt : String) (old : Relation)
    (h : findRel s rtyp src tgt = some old) : hasRelKey s rtyp src tgt = true := by
  unfold findRel at h
  unfold hasRelKey
  exact List.any_eq_true.mpr ⟨old, List.mem_of_find?_eq_some h, List.find?_some h⟩

/-- C2: For every relation stored by any ingestion write, the confidence
attribute lies in [0,1] (preserved across whole ingest runs, given the
incoming store satisfies it), and for every re-observation of the same
(source, target, type) tuple the stored confidence after the upsert is the
maximum of old and new (hence never decreases), while `observed_at` is
updated to the new observation and the observation counter is incremented
instead of creating a parallel duplicate edge (edge count and node count are
unchanged). -/
theorem relation_observation_invariants (s : Store) (recs : List Record)
    (r : RelRecord) (old : Relation)
    (hok : storeConfOk s) (hv : validate (Record.rel r) = none)
    (hfind : findRel s r.rtyp r.src r.tgt = some old) :
    storeConfOk ((ingest recs s).1) ∧
    findRel ((ingest [Record.rel r] s).1) r.rtyp r.src r.tgt =
      some { rtyp := old.rtyp, src := old.src, tgt := old.tgt,
             confidence := max old.confidence r.confidence,
             observed_at := r.observed_at,
             observations := old.observations + 1 } ∧
    old.confidence ≤ max old.confidence r.confidence ∧
    relCount ((ingest [Record.rel r] s).1) = relCount s ∧
    nodeCount ((ingest [Record.rel r] s).1) = nodeCount s := by
  have hkey := hasRelKey_of_findRel s r.rtyp r.src r.tgt old hfind
  have hone : (ingest [Record.rel r] s).1 = (upsertRelation s r).1 := by
    simp [ingest, ingestStep, hv]
  refine ⟨storeConfOk_foldl recs s emptyReport hok, ?_, le_max_left _ _, ?_, ?_⟩
  · rw [hone]
    unfold upsertRelation
    rw [if_pos (by unfold hasRelKey at hkey; exact hkey)]
    unfold findRel at hfind ⊢
    simpa [mergeRelation] using find?_map_merge r s.rels old hfind
  · rw [hone]
    exact (upsertRelation_found s r hkey).2
  · rw [hone]
    unfold nodeCount
    rw [upsertRelation_nodes]

def c2OldRelation : Relation :=
  ⟨"DEPENDS_ON_CRITICAL", "easypost-mcp-project", "desktop-commander-mcp", 1/2, 5, 1⟩

def c2Store : Store := ⟨[], [c2OldRelation]⟩

def c2Observation : RelRecord :=
  ⟨"DEPENDS_ON_CRITICAL", "easypost-mcp-project", "desktop-commander-mcp", 3/4, 9⟩

/-- Witness for C2 at a concrete store and re-observation. -/
theorem relation_observation_invariants_witness :
    (storeConfOk c2Store ∧ validate (Record.rel c2Observation) = none ∧
      findRel c2Store c2Observation.rtyp c2Observation.src c2Observation.tgt =
        some c2OldRelation) ∧
    (storeConfOk ((ingest [Record.rel c2Observation] c2Store).1) ∧
      findRel ((ingest [Record.rel c2Observation] c2Store).1)
          c2Observation.rtyp c2Observation.src c2Observation.tgt =
        some { rtyp := c2OldRelation.rtyp, src := c2OldRelation.src,
               tgt := c2OldRelation.tgt,
               confidence := max c2OldRelation.confidence c2Observation.confidence,
               observed_at := c2Observation.observed_at,
               observations := c2OldRelation.observations + 1 } ∧
      c2OldRelation.confidence ≤ max c2OldRelation.confidence c2Observation.confidence ∧
      relCount ((ingest [Record.rel c2Observation] c2Store).1) = relCount c2Store ∧
      nodeCount ((ingest [Record.rel c2Observation] c2Store).1) = nodeCount c2Store) :=
  have hok : storeConfOk c2Store := by
    intro rel hmem
    simp only [c2Store, List.mem_singleton] at hmem
    subst hmem
    constructor <;> norm_num [c2OldRelation]
  have hv : validate (Record.rel c2Observation) = none := by
    simp only [validate, c2Observation]
    rw [if_neg (by simp), if_neg (by norm_num)]
  have hfind : findRel c2Store c2Observation.rtyp c2Observation.src c2Observation.tgt =
      some c2OldRelation := by
    simp [findRel, c2Store, c2Observation, c2OldRelation, relKeyMatches]
  ⟨⟨hok, hv, hfind⟩,
    relation_observation_invariants c2Store [Record.rel c2Observation]
      c2Observation c2OldRelation hok hv hfind⟩

/-- The ephemeral result of one retrieval call (§3 Subgraph Result): the node
set (as ids), the edge set, a truncation flag and an optional reason note. -/
structure SubgraphResult where
  nodes : List String
  edges : List Relation
  truncated : Bool
  reason : Option String
deriving Repr, DecidableEq

/-- Bounded walk enumeration: `walks nbr x k` lists every walk of exactly
`k` hops starting at `x` along the neighbour function `nbr`, as node
sequences of `k+1` nodes with head `x`. -/
def walks (nbr : String → List String) (x : String) : Nat → List (List String)
  | 0 => [[x]]
  | k+1 => (nbr x).flatMap (fun y => (walks nbr y k).map (fun w => x :: w))

/-- Hop reachability: `reachableIn nbr x v k` decides whether `v` is
reachable from `x` in exactly `k` hops. -/
def reachableIn (nbr : String → List String) (x v : String) : Nat → Bool
  | 0 => x == v
  | k+1 => (nbr x).any (fun y => reachableIn nbr y v k)

def walkEnd (w : List String) : String := w.getLastD ""

/-- A frontier candidate during k-hop expansion: the node id together with
the best confidence and most recent observation time of an edge reaching it. -/
structure Cand where
  id : String
  conf : ℚ
  obs : Nat
deriving Repr, DecidableEq

/-- Modelled from the spec: the deterministic admission tie-break of §4.4 —
higher confidence first, then more recent `observed_at`, then lexicographic
id. -/
def candBefore (a b : Cand) : Bool :=
  if a.conf ≠ b.conf then decide (b.conf < a.conf)
  else if a.obs ≠ b.obs then decide (b.obs < a.obs)
  else decide (a.id ≤ b.id)

def insertCand (c : Cand) : List Cand → List Cand
  | [] => [c]
  | d :: rest => if candBefore c d then c :: d :: rest else d :: insertCand c rest

def sortCands : List Cand → List Cand
  | [] => []
  | c :: rest => insertCand c (sortCands rest)

def insertId (x : String) : List String → List String
  | [] => [x]
  | y :: rest => if x ≤ y then x :: y :: rest else y :: insertId x rest

def sortIds : List String → List String
  | [] => []
  | x :: rest => insertId x (sortIds rest)

/-- The distinct targets of edges leaving the current frontier. -/
def frontierTargets (g : Store) (frontier : List String) : List String :=
  ((g.rels.filter (fun r => frontier.contains r.src)).map Relation.tgt).dedup

/-- Best confidence and most recent observation among the edges reaching `v`
from the frontier. -/
def bestScore (g : Store) (frontier : List String) (v : String) : ℚ × Nat :=
  (g.rels.filter (fun r => frontier.contains r.src && r.tgt == v)).foldl
    (fun acc r => (max acc.1 r.confidence, max acc.2 r.observed_at)) (0, 0)

/-- The not-yet-admitted frontier candidates with their admission scores. -/
def frontierCands (g : Store) (admitted frontier : List String) : List Cand :=
  ((frontierTargets g frontier).filter (fun v => !(admitted.contains v))).map
    (fun v => ⟨v, (bestScore g frontier v).1, (bestScore g frontier v).2⟩)

/-- Modelled from the spec: one breadth-first level per unit of `depth`; the
level's candidates are admitted in tie-break order up to the remaining
budget (§4.4 k-hop). -/
def khopLoop (g : Store) : Nat → List String → List String → Nat → Bool →
    List String × Bool
  | 0, admitted, _, _, trunc => (admitted, trunc)
  | d+1, admitted, frontier, remaining, trunc =>
      let cands := sortCands (frontierCands g admitted frontier)
      let taken := (cands.take remaining).map Cand.id
      khopLoop g d (admitted ++ taken) taken (remaining - taken.length)
        (trunc || decide (remaining < cands.length))

/-- The seed ids that exist in the store, deduplicated and ordered
deterministically. -/
def existingSeeds (g : Store) (seeds : List String) : List String :=
  sortIds ((seeds.dedup).filter (fun v => g.nodes.any (fun n => n.id == v)))

/-- Modelled from the spec: the Retrieval Engine in k-hop mode
(`retrieve(query, mode, depth, nodeBudget)`, §4.4; `graphrag_retrieval.py`
not under the available tree).  Breadth-first from the seeds, bounded by
`depth` and `budget`; edges are included only if both endpoints were
admitted. -/
def khopRetrieve (g : Store) (seeds : List String) (depth budget : Nat) :
    SubgraphResult :=
  let s0 := existingSeeds g seeds
  let admitted0 := s0.take budget
  let out := khopLoop g depth admitted0 admitted0 (budget - admitted0.length)
    (decide (budget < s0.length))
  { nodes := out.1,
    edges := g.rels.filter (fun r => out.1.contains r.src && out.1.contains r.tgt),
    truncated := out.2,
    reason := none }

/-- Node ordering for semantic seed selection: higher similarity score first,
then lexicographic id (the scoring strategy itself is pluggable per the
spec's open question, so it is a parameter). -/
def nodeBefore (score : Node → ℚ) (a b : Node) : Bool :=
  if score a ≠ score b then decide (score b < score a) else decide (a.id ≤ b.id)

def insertNodeBy (score : Node → ℚ) (n : Node) : List Node → List Node
  | [] => [n]
  | m :: rest =>
      if nodeBefore score n m then n :: m :: rest else m :: insertNodeBy score n rest

def sortNodesBy (score : Node → ℚ) : List Node → List Node
  | [] => []
  | n :: rest => insertNodeBy score n (sortNodesBy score rest)

/-- Modelled from the spec: semantic-mode seed selection — the top-N nodes by
similarity scoring against entity text fields (§4.4 semantic). -/
def semanticSeeds (g : Store) (score : Node → ℚ) (topN : Nat) : List String :=
  ((sortNodesBy score g.nodes).take topN).map Node.id

/-- Modelled from the spec: semantic mode selects seeds by similarity and
then proceeds exactly as k-hop expansion from those seeds (§4.4). -/
def semanticRetrieve (g : Store) (score : Node → ℚ) (topN depth budget : Nat) :
    SubgraphResult :=
  khopRetrieve g (semanticSeeds g score topN) depth budget

/-- Directed adjacency along every relation type. -/
def nbrAll (g : Store) (x : String) : List String :=
  (g.rels.filter (fun r => r.src == x)).map Relation.tgt

/-- Bounded shortest-path search: the first walk from `a` ending at `b`,
trying hop counts 0, 1, …, `depth` in order. -/
def shortestWalk (g : Store) (a b : String) (depth : Nat) : Option (List String) :=
  (((List.range (depth + 1)).flatMap (fun k => walks (nbrAll g) a k)).filter
    (fun w => walkEnd w == b)).head?

/-- Modelled from the spec: the Retrieval Engine in path mode (§4.4 path):
bounded shortest-path search up to `depth` hops; if no path exists within the
bound, an empty node/edge set is returned (not an error) with
`truncated=false` and the reason note "no_path_within_depth". -/
def pathRetrieve (g : Store) (a b : String) (depth : Nat) :
    Except String SubgraphResult :=
  match shortestWalk g a b depth with
  | none => .ok { nodes := [], edges := [], truncated := false,
                  reason := some "no_path_within_depth" }
  | some w => .ok { nodes := w.dedup,
                    edges := g.rels.filter
                      (fun r => w.contains r.src && w.contains r.tgt),
                    truncated := false, reason := none }

/-- Directed adjacency along DEPENDS_ON_CRITICAL edges only. -/
def nbrDep (g : Store) (x : String) : List String :=
  (g.rels.filter (fun r => r.rtyp == "DEPENDS_ON_CRITICAL" && r.src == x)).map
    Relation.tgt

/-- Embedding of the `projectDependencyGraph` @cypher statement of
`api/graphql/index.js`: match every variable-length path
`(p:Project \x7bid: $projectId\x7d)-[:DEPENDS_ON_CRITICAL*1..3]->()`, unwind the
nodes of each path and return them distinct. -/
def projectDependencyGraph (g : Store) (projectId : String) : List String :=
  if g.nodes.any (fun n => n.typ == "Project" && n.id == projectId) then
    (([1, 2, 3].flatMap (fun k => walks (nbrDep g) projectId k)).flatMap
      (fun w => w)).dedup
  else []

theorem contains_mem {α : Type} [BEq α] [LawfulBEq α] {l : List α} {a : α}
    (h : l.contains a = true) : a ∈ l :=
  List.elem_iff.mp h

theorem khopLoop_length (g : Store) (d : Nat) :
    ∀ (admitted frontier : List String) (remaining : Nat) (trunc : Bool) (B : Nat),
    admitted.length + remaining ≤ B →
    ((khopLoop g d admitted frontier remaining trunc).1).length ≤ B := by
  induction d with
  | zero =>
      intro admitted _ remaining _ B h
      simpa [khopLoop] using le_trans (Nat.le_add_right _ _) h
  | succ d ih =>
      intro admitted frontier remaining trunc B h
      simp only [khopLoop]
      apply ih
      have htake :
          (((sortCands (frontierCands g admitted frontier)).take remaining).map
            Cand.id).length ≤ remaining := by
        simp [List.length_take]
      simp only [List.length_append]
      omega

theorem khopRetrieve_budget (g : Store) (seeds : List String) (depth budget : Nat) :
    ((khopRetrieve g seeds depth budget).nodes).length ≤ budget := by
  unfold khopRetrieve
  dsimp only
  apply khopLoop_length
  have h : ((existingSeeds g seeds).take budget).length ≤ budget := by
    simp [List.length_take]
  omega

theorem khopRetrieve_edges_closed (g : Store) (seeds : List String)
    (depth budget : Nat) :
    ∀ e ∈ (khopRetrieve g seeds depth budget).edges,
      e.src ∈ (khopRetrieve g seeds depth budget).nodes ∧
      e.tgt ∈ (khopRetrieve g seeds depth budget).nodes := by
  intro e he
  unfold khopRetrieve at he ⊢
  dsimp only at he ⊢
  have hp := (List.mem_filter.mp he).2
  rw [Bool.and_eq_true] at hp
  exact ⟨contains_mem hp.1, contains_mem hp.2⟩

/-- C3: For every retrieval call in k-hop or semantic mode, with any seeds,
depth, and node budget, the returned SubgraphResult contains at most
`node_budget` nodes, and every returned edge has both of its endpoints in the
returned node set. -/
theorem retrieval_budget_respected (g : Store) (seeds : List String)
    (score : Node → ℚ) (topN depth budget : Nat) :
    ((khopRetrieve g seeds depth budget).nodes).length ≤ budget ∧
    (∀ e ∈ (khopRetrieve g seeds depth budget).edges,
        e.src ∈ (khopRetrieve g seeds depth budget).nodes ∧
        e.tgt ∈ (khopRetrieve g seeds depth budget).nodes) ∧
    ((semanticRetrieve g score topN depth budget).nodes).length ≤ budget ∧
    (∀ e ∈ (semanticRetrieve g score topN depth budget).edges,
        e.src ∈ (semanticRetrieve g score topN depth budget).nodes ∧
        e.tgt ∈ (semanticRetrieve g score topN depth budget).nodes) :=
  ⟨khopRetrieve_budget g seeds depth budget,
   khopRetrieve_edges_closed g seeds depth budget,
   khopRetrieve_budget g (semanticSeeds g score topN) depth budget,
   khopRetrieve_edges_closed g (semanticSeeds g score topN) depth budget⟩

theorem mem_walks_head (nbr : String → List String) (k : Nat) (x : String)
    (w : List String) (h : w ∈ walks nbr x k) : ∃ w2, w = x :: w2 := by
  cases k with
  | zero =>
      simp only [walks, List.mem_singleton] at h
      exact ⟨[], by simp [h]⟩
  | succ k =>
      simp only [walks, List.mem_flatMap, List.mem_map] at h
      obtain ⟨y, _, w0, _, hw⟩ := h
      exact ⟨w0, hw.symm⟩

theorem getLastD_cons_cons (x y : String) (rest : List String) (d : String) :
    (x :: y :: rest).getLastD d = (y :: rest).getLastD d := by
  simp [List.getLastD_eq_getLast?, List.getLast?_cons_cons]

theorem walkEnd_cons (x : String) (w : List String) (h : w ≠ []) :
    walkEnd (x :: w) = walkEnd w := by
  cases w with
  | nil => simp at h
  | cons y rest => exact getLastD_cons_cons x y rest ""

theorem walkEnd_mem : ∀ (w : List String), w ≠ [] → walkEnd w ∈ w := by
  intro w
  induction w with
  | nil => intro h; simp at h
  | cons x rest ih =>
      intro _
      cases rest with
      | nil => simp [walkEnd]
      | cons y rest2 =>
          rw [walkEnd_cons x (y :: rest2) (by simp)]
          exact List.mem_cons_of_mem x (ih (by simp))

theorem reachableIn_iff_walkEnd (nbr : String → List String) :
    ∀ (k : Nat) (x v : String),
    reachableIn nbr x v k = true ↔ ∃ w ∈ walks nbr x k, walkEnd w = v := by
  intro k
  induction k with
  | zero =>
      intro x v
      simp only [reachableIn, walks, List.mem_singleton, beq_iff_eq]
      constructor
      · intro h
        exact ⟨[x], rfl, h⟩
      · intro ⟨w, hw, hend⟩
        subst hw
        simpa [walkEnd] using hend
  | succ k ih =>
      intro x v
      simp only [reachableIn, walks, List.any_eq_true, List.mem_flatMap,
        List.mem_map]
      constructor
      · intro ⟨y, hy, hr⟩
        obtain ⟨w0, hw0, hend⟩ := (ih y v).mp hr
        obtain ⟨w2, hw2⟩ := mem_walks_head nbr k y w0 hw0
        refine ⟨x :: w0, ⟨y, hy, w0, hw0, rfl⟩, ?_⟩
        rw [walkEnd_cons x w0 (by simp [hw2])]
        exact hend
      · intro ⟨w, ⟨y, hy, w0, hw0, hw⟩, hend⟩
        subst hw
        obtain ⟨w2, hw2⟩ := mem_walks_head nbr k y w0 hw0
        refine ⟨y, hy, (ih y v).mpr ⟨w0, hw0, ?_⟩⟩
        rw [walkEnd_cons x w0 (by simp [hw2])] at hend
        exact hend

theorem mem_walks_sound (nbr : String → List String) :
    ∀ (k : Nat) (x v : String) (w : List String), w ∈ walks nbr x k → v ∈ w →
    v = x ∨ ∃ j, 1 ≤ j ∧ j ≤ k ∧ reachableIn nbr x v j = true := by
  intro k
  induction k with
  | zero =>
      intro x v w hw hv
      simp only [walks, List.mem_singleton] at hw
      subst hw
      simp only [List.mem_singleton] at hv
      exact Or.inl hv
  | succ k ih =>
      intro x v w hw hv
      simp only [walks, List.mem_flatMap, List.mem_map] at hw
      obtain ⟨y, hy, w0, hw0, hw⟩ := hw
      subst hw
      rcases List.mem_cons.mp hv with hvx | hvw0
      · exact Or.inl hvx
      · rcases ih y v w0 hw0 hvw0 with hvy | ⟨j, hj1, hjk, hr⟩
        · refine Or.inr ⟨1, le_refl 1, by omega, ?_⟩
          simp only [reachableIn, List.any_eq_true]
          exact ⟨y, hy, by simp [reachableIn, hvy]⟩
        · refine Or.inr ⟨j + 1, by omega, by omega, ?_⟩
          simp only [reachableIn, List.any_eq_true]
          exact ⟨y, hy, hr⟩

theorem walks_succ_of_nbr_nil (nbr : String → List String) (x : String) (k : Nat)
    (h : nbr x = []) : walks nbr x (k+1) = [] := by
  simp [walks, h]

/-- C8: For every projectId, the projectDependencyGraph query returns exactly
the distinct nodes lying on DEPENDS_ON_CRITICAL paths of length 1 to 3
starting at the Project node with that id (characterised against the
independent hop-reachability predicate); in particular no node strictly more
than 3 DEPENDS_ON_CRITICAL hops from the project is ever returned, and if the
project has no outgoing DEPENDS_ON_CRITICAL edge the result is empty. -/
theorem projectDependencyGraph_correct (g : Store) (pid v : String)
    (hp : g.nodes.any (fun n => n.typ == "Project" && n.id == pid) = true) :
    (v ∈ projectDependencyGraph g pid ↔
      ((v = pid ∧ nbrDep g pid ≠ []) ∨
       ∃ j, 1 ≤ j ∧ j ≤ 3 ∧ reachableIn (nbrDep g) pid v j = true)) ∧
    (v ∈ projectDependencyGraph g pid →
      ∃ j, j ≤ 3 ∧ reachableIn (nbrDep g) pid v j = true) ∧
    (nbrDep g pid = [] → projectDependencyGraph g pid = []) := by
  have hunfold : projectDependencyGraph g pid =
      (([1, 2, 3].flatMap (fun k => walks (nbrDep g) pid k)).flatMap
        (fun w => w)).dedup := by
    unfold projectDependencyGraph
    rw [if_pos hp]
  have hiff : v ∈ projectDependencyGraph g pid ↔
      ((v = pid ∧ nbrDep g pid ≠ []) ∨
       ∃ j, 1 ≤ j ∧ j ≤ 3 ∧ reachableIn (nbrDep g) pid v j = true) := by
    rw [hunfold, List.mem_dedup, List.mem_flatMap]
    constructor
    · intro ⟨w, hw, hvw⟩
      rw [List.mem_flatMap] at hw
      obtain ⟨k, hk, hwk⟩ := hw
      have hk13 : 1 ≤ k ∧ k ≤ 3 := by
        simp only [List.mem_cons, List.not_mem_nil, or_false] at hk
        rcases hk with rfl | rfl | rfl <;> omega
      rcases mem_walks_sound (nbrDep g) k pid v w hwk hvw with hvp | ⟨j, hj1, hjk, hr⟩
      · left
        refine ⟨hvp, ?_⟩
        obtain ⟨k2, hk2⟩ : ∃ k2, k = k2 + 1 := ⟨k - 1, by omega⟩
        subst hk2
        intro hnil
        rw [walks_succ_of_nbr_nil (nbrDep g) pid k2 hnil] at hwk
        simp at hwk
      · exact Or.inr ⟨j, hj1, by omega, hr⟩
    · intro h
      rcases h with ⟨hvp, hnnil⟩ | ⟨j, hj1, hj3, hr⟩
      · obtain ⟨y, hy⟩ := List.exists_mem_of_ne_nil _ hnnil
        refine ⟨pid :: [y], ?_, by simp [hvp]⟩
        rw [List.mem_flatMap]
        refine ⟨1, by simp, ?_⟩
        show pid :: [y] ∈ walks (nbrDep g) pid 1
        simp only [walks, List.mem_flatMap, List.mem_map]
        exact ⟨y, hy, [y], by simp [walks], rfl⟩
      · obtain ⟨w, hw, hend⟩ := (reachableIn_iff_walkEnd (nbrDep g) j pid v).mp hr
        obtain ⟨w2, hw2⟩ := mem_walks_head (nbrDep g) j pid w hw
        refine ⟨w, ?_, by rw [← hend]; exact walkEnd_mem w (by simp [hw2])⟩
        rw [List.mem_flatMap]
        refine ⟨j, ?_, hw⟩
        interval_cases j <;> simp
  refine ⟨hiff, ?_, ?_⟩
  · intro hv
    rcases hiff.mp hv with ⟨hvp, -⟩ | ⟨j, -, hj3, hr⟩
    · exact ⟨0, by omega, by simp [reachableIn, hvp]⟩
    · exact ⟨j, hj3, hr⟩
  · intro hnil
    rw [hunfold]
    have h1 : walks (nbrDep g) pid 1 = [] := walks_succ_of_nbr_nil _ _ 0 hnil
    have h2 : walks (nbrDep g) pid 2 = [] := walks_succ_of_nbr_nil _ _ 1 hnil
    have h3 : walks (nbrDep g) pid 3 = [] := walks_succ_of_nbr_nil _ _ 2 hnil
    simp [h1, h2, h3]

/-- C6: For every pair of entity ids with no connecting path of length at
most depth, a retrieve call in path mode returns (without raising an error) a
SubgraphResult with an empty node set, an empty edge set, truncated=false,
and reason "no_path_within_depth". -/
theorem pathRetrieve_no_path (g : Store) (a b : String) (depth : Nat)
    (h : ∀ k, k ≤ depth → reachableIn (nbrAll g) a b k = false) :
    pathRetrieve g a b depth =
      .ok { nodes := [], edges := [], truncated := false,
            reason := some "no_path_within_depth" } := by
  have hsw : shortestWalk g a b depth = none := by
    unfold shortestWalk
    have hnil :
        (((List.range (depth + 1)).flatMap (fun k => walks (nbrAll g) a k)).filter
          (fun w => walkEnd w == b)) = [] := by
      rw [List.eq_nil_iff_forall_not_mem]
      intro w hw
      rw [List.mem_filter, List.mem_flatMap] at hw
      obtain ⟨⟨k, hk, hwk⟩, hend⟩ := hw
      rw [List.mem_range] at hk
      have hr : reachableIn (nbrAll g) a b k = true :=
        (reachableIn_iff_walkEnd (nbrAll g) k a b).mpr
          ⟨w, hwk, by simpa using hend⟩
      rw [h k (by omega)] at hr
      exact Bool.false_ne_true hr
    rw [hnil]
    rfl
  unfold pathRetrieve
  rw [hsw]

/-- A concrete store shaped after `seed-data.cypher`: the seed projects,
tool, configuration and patterns with their seed relationships (confidence
and observation fields chosen for the test, the seed script does not set
them). -/
def seedStore : Store :=
  ⟨[⟨"Tool", "desktop-commander-mcp", ["infrastructure", "mcp-server", "core"],
      [("status", "stable"), ("criticality", "critical")]⟩,
    ⟨"Configuration", "user-m3-max-setup", ["hardware", "m3-max", "baseline"],
      [("status", "stable")]⟩,
    ⟨"Project", "easypost-mcp-project", ["production", "shipping", "fastapi", "react"],
      [("status", "production"), ("criticality", "high")]⟩,
    ⟨"Project", "macossetup", ["dev-environment", "macos", "m3-max"],
      [("status", "active")]⟩,
    ⟨"Pattern", "m3-max-parallel-pattern", ["m3-max", "pattern", "performance", "reusable"],
      [("status", "proven")]⟩,
    ⟨"Pattern", "async-first-pattern", ["pattern", "async", "architecture", "best-practice"],
      [("status", "proven")]⟩],
   [⟨"DEPENDS_ON_CRITICAL", "easypost-mcp-project", "desktop-commander-mcp", 1, 10, 1⟩,
    ⟨"DEPENDS_ON_CRITICAL", "macossetup", "desktop-commander-mcp", 1, 20, 1⟩,
    ⟨"OPTIMIZED_FOR", "easypost-mcp-project", "user-m3-max-setup", 1, 30, 1⟩,
    ⟨"OPTIMIZED_FOR", "m3-max-parallel-pattern", "user-m3-max-setup", 1, 40, 1⟩,
    ⟨"IMPLEMENTS_PATTERN", "easypost-mcp-project", "m3-max-parallel-pattern", 1, 50, 1⟩,
    ⟨"IMPLEMENTS_PATTERN", "easypost-mcp-project", "async-first-pattern", 1, 60, 1⟩]⟩

/-- Witness for C6: in the seed store there is no directed path from
`macossetup` to `easypost-mcp-project` within 2 hops, and path mode returns
the empty subgraph with the "no_path_within_depth" reason. -/
theorem pathRetrieve_no_path_witness :
    (∀ k, k ≤ 2 →
      reachableIn (nbrAll seedStore) "macossetup" "easypost-mcp-project" k = false) ∧
    pathRetrieve seedStore "macossetup" "easypost-mcp-project" 2 =
      .ok { nodes := [], edges := [], truncated := false,
            reason := some "no_path_within_depth" } :=
  have h : ∀ k, k ≤ 2 →
      reachableIn (nbrAll seedStore) "macossetup" "easypost-mcp-project" k = false := by
    decide
  ⟨h, pathRetrieve_no_path seedStore "macossetup" "easypost-mcp-project" 2 h⟩

/-- Witness for C8 at the seed store: the dependency graph of
`easypost-mcp-project` is characterised for the node
`desktop-commander-mcp`. -/
theorem projectDependencyGraph_correct_witness :
    (seedStore.nodes.any
      (fun n => n.typ == "Project" && n.id == "easypost-mcp-project") = true) ∧
    (("desktop-commander-mcp" ∈
        projectDependencyGraph seedStore "easypost-mcp-project" ↔
      (("desktop-commander-mcp" = "easypost-mcp-project" ∧
        nbrDep seedStore "easypost-mcp-project" ≠ []) ∨
       ∃ j, 1 ≤ j ∧ j ≤ 3 ∧
         reachableIn (nbrDep seedStore) "easypost-mcp-project"
           "desktop-commander-mcp" j = true)) ∧
    ("desktop-commander-mcp" ∈
        projectDependencyGraph seedStore "easypost-mcp-project" →
      ∃ j, j ≤ 3 ∧
        reachableIn (nbrDep seedStore) "easypost-mcp-project"
          "desktop-commander-mcp" j = true) ∧
    (nbrDep seedStore "easypost-mcp-project" = [] →
      projectDependencyGraph seedStore "easypost-mcp-project" = [])) :=
  have hp : seedStore.nodes.any
      (fun n => n.typ == "Project" && n.id == "easypost-mcp-project") = true := by
    decide
  ⟨hp, projectDependencyGraph_correct seedStore "easypost-mcp-project"
    "desktop-commander-mcp" hp⟩

/-- A value bound to a query parameter. -/
inductive ParamValue where
  | str (s : String)
  | num (q : ℚ)
  | natVal (n : Nat)
  | strList (l : List String)
  | attrMap (l : List (String × String))
deriving Repr, DecidableEq

/-- A query sent to the store: the query text and its bound parameters. -/
structure StoreQuery where
  text : String
  params : List (String × ParamValue)
deriving Repr, DecidableEq

/-- Embedding of the `projectsByStatus` @cypher statement of
`api/graphql/index.js`; the status value is passed as the bound parameter
`$status`. -/
def projectsByStatusQuery (status : String) : StoreQuery :=
  ⟨"MATCH (p:Project \x7bstatus: $status\x7d) RETURN p",
   [("status", .str status)]⟩

/-- Embedding of the `criticalInfrastructure` @cypher statement of
`api/graphql/index.js`; it takes no user values at all. -/
def criticalInfrastructureQuery : StoreQuery :=
  ⟨"MATCH (t:Tool) WHERE t.criticality = \x27critical\x27 RETURN t", []⟩

/-- Embedding of the `patternsByTag` @cypher statement of
`api/graphql/index.js`; the tag value is passed as the bound parameter
`$tag`. -/
def patternsByTagQuery (tag : String) : StoreQuery :=
  ⟨"MATCH (p:Pattern) WHERE $tag IN p.tags RETURN p",
   [("tag", .str tag)]⟩

/-- Embedding of the `projectDependencyGraph` @cypher statement of
`api/graphql/index.js`; the project id is passed as the bound parameter
`$projectId`. -/
def projectDependencyGraphQuery (projectId : String) : StoreQuery :=
  ⟨"MATCH path = (p:Project \x7bid: $projectId\x7d)-[:DEPENDS_ON_CRITICAL*1..3]->() UNWIND nodes(path) AS node RETURN DISTINCT node",
   [("projectId", .str projectId)]⟩

/-- Modelled from the spec: the ingestion engine's entity upsert template
(`etl_engine.py` not under the available tree); §6 requires every record
value to pass as a bound parameter, never concatenated into query text. -/
def entityUpsertQuery (e : EntityRecord) : StoreQuery :=
  ⟨"MERGE (n \x7bentity_type: $typ, id: $id\x7d) ON CREATE SET n += $attrs, n.tags = $tags ON MATCH SET n += $attrs, n.tags = apoc.coll.union(n.tags, $tags)",
   [("typ", .str e.typ), ("id", .str e.id), ("tags", .strList e.tags),
    ("attrs", .attrMap e.attrs)]⟩

/-- Modelled from the spec: the ingestion engine's relation upsert template;
all record values are bound parameters. -/
def relationUpsertQuery (r : RelRecord) : StoreQuery :=
  ⟨"MATCH (a \x7bid: $src\x7d), (b \x7bid: $tgt\x7d) MERGE (a)-[rel \x7brel_type: $rtyp\x7d]->(b) ON CREATE SET rel.confidence = $confidence, rel.observed_at = $observed_at, rel.observations = 1 ON MATCH SET rel.confidence = apoc.coll.max([rel.confidence, $confidence]), rel.observed_at = $observed_at, rel.observations = rel.observations + 1",
   [("src", .str r.src), ("tgt", .str r.tgt), ("rtyp", .str r.rtyp),
    ("confidence", .num r.confidence), ("observed_at", .natVal r.observed_at)]⟩

/-- Modelled from the spec: the retrieval engine's seed-lookup read. -/
def seedLookupQuery (seeds : List String) : StoreQuery :=
  ⟨"MATCH (n) WHERE n.id IN $seeds RETURN n.id",
   [("seeds", .strList seeds)]⟩

/-- Modelled from the spec: the retrieval engine's frontier-expansion read. -/
def khopExpandQuery (frontier : List String) : StoreQuery :=
  ⟨"MATCH (a)-[r]->(b) WHERE a.id IN $frontier RETURN b.id, r.confidence, r.observed_at",
   [("frontier", .strList frontier)]⟩

/-- Modelled from the spec: semantic seed selection read; the free-text query
and the seed count are bound parameters. -/
def semanticSeedQuery (queryText : String) (topN : Nat) : StoreQuery :=
  ⟨"MATCH (n) RETURN n.id ORDER BY similarity(n.name, n.description, $text) DESC LIMIT $topN",
   [("text", .str queryText), ("topN", .natVal topN)]⟩

/-- Modelled from the spec: bounded shortest-path read of path mode; the two
entity ids and the hop bound are bound parameters. -/
def shortestPathQuery (a b : String) (depth : Nat) : StoreQuery :=
  ⟨"MATCH (x \x7bid: $src\x7d), (y \x7bid: $dst\x7d) CALL kg.shortestPathWithin(x, y, $depth) YIELD path RETURN path",
   [("src", .str a), ("dst", .str b), ("depth", .natVal depth)]⟩

/-- C4: For every query issued to the store by either engine (and by the
GraphQL facade), the query text is a fixed parameterized template that does
not depend on the raw user or record values: for any two inputs differing
only in their values the produced query text is identical, and the values
appear only in the bound-parameter list. -/
theorem queries_fixed_templates :
    (∀ s1 s2, (projectsByStatusQuery s1).text = (projectsByStatusQuery s2).text) ∧
    (∀ s, (projectsByStatusQuery s).params = [("status", ParamValue.str s)]) ∧
    (criticalInfrastructureQuery.params = []) ∧
    (∀ t1 t2, (patternsByTagQuery t1).text = (patternsByTagQuery t2).text) ∧
    (∀ t, (patternsByTagQuery t).params = [("tag", ParamValue.str t)]) ∧
    (∀ p1 p2, (projectDependencyGraphQuery p1).text =
      (projectDependencyGraphQuery p2).text) ∧
    (∀ p, (projectDependencyGraphQuery p).params =
      [("projectId", ParamValue.str p)]) ∧
    (∀ e1 e2, (entityUpsertQuery e1).text = (entityUpsertQuery e2).text) ∧
    (∀ e, (entityUpsertQuery e).params =
      [("typ", ParamValue.str e.typ), ("id", ParamValue.str e.id),
       ("tags", ParamValue.strList e.tags), ("attrs", ParamValue.attrMap e.attrs)]) ∧
    (∀ r1 r2, (relationUpsertQuery r1).text = (relationUpsertQuery r2).text) ∧
    (∀ r, (relationUpsertQuery r).params =
      [("src", ParamValue.str r.src), ("tgt", ParamValue.str r.tgt),
       ("rtyp", ParamValue.str r.rtyp), ("confidence", ParamValue.num r.confidence),
       ("observed_at", ParamValue.natVal r.observed_at)]) ∧
    (∀ l1 l2, (seedLookupQuery l1).text = (seedLookupQuery l2).text) ∧
    (∀ f1 f2, (khopExpandQuery f1).text = (khopExpandQuery f2).text) ∧
    (∀ q1 n1 q2 n2, (semanticSeedQuery q1 n1).text = (semanticSeedQuery q2 n2).text) ∧
    (∀ a1 b1 d1 a2 b2 d2,
      (shortestPathQuery a1 b1 d1).text = (shortestPathQuery a2 b2 d2).text) :=
  ⟨fun _ _ => rfl, fun _ => rfl, rfl, fun _ _ => rfl, fun _ => rfl,
   fun _ _ => rfl, fun _ => rfl, fun _ _ => rfl, fun _ => rfl,
   fun _ _ => rfl, fun _ => rfl, fun _ _ => rfl, fun _ _ => rfl,
   fun _ _ _ _ => rfl, fun _ _ _ _ _ _ => rfl⟩

/-- The kinds of statements the embedded code issues against the store:
MATCH-only reads (the facade's @cypher queries and the retrieval engine's
reads) and the ingestion engine's MERGE writes. -/
inductive Stmt where
  | matchNodesByProps (label : String) (props : List (String × String))
  | matchNodesByTag (label : String) (tag : String)
  | matchVarLengthPath (label : String) (id : String) (rtyp : String)
      (minHops maxHops : Nat)
  | lookupNodes (ids : List String)
  | expandFrontier (frontier : List String)
  | scanNodesForScoring
  | shortestPathSearch (a b : String) (depth : Nat)
  | mergeEntityStmt (e : EntityRecord)
  | mergeRelationStmt (r : RelRecord)
deriving Repr, DecidableEq

/-- The state effect of executing one statement: MATCH statements leave the
store unchanged, MERGE statements perform the corresponding upsert. -/
def stmtEffect (s : Store) : Stmt → Store
  | .matchNodesByProps _ _ => s
  | .matchNodesByTag _ _ => s
  | .matchVarLengthPath _ _ _ _ _ => s
  | .lookupNodes _ => s
  | .expandFrontier _ => s
  | .scanNodesForScoring => s
  | .shortestPathSearch _ _ _ => s
  | .mergeEntityStmt e => (upsertEntity s e).1
  | .mergeRelationStmt r => (upsertRelation s r).1

def runStmts (stmts : List Stmt) (s : Store) : Store :=
  stmts.foldl stmtEffect s

def isReadStmt : Stmt → Bool
  | .mergeEntityStmt _ => false
  | .mergeRelationStmt _ => false
  | _ => true

/-- The statements issued by the four facade @cypher queries of
`api/graphql/index.js` (each is a single MATCH ... RETURN). -/
def facadeReadStmts (status tag projectId : String) : List Stmt :=
  [.matchNodesByProps "Project" [("status", status)],
   .matchNodesByProps "Tool" [("criticality", "critical")],
   .matchNodesByTag "Pattern" tag,
   .matchVarLengthPath "Project" projectId "DEPENDS_ON_CRITICAL" 1 3]

/-- Modelled from the spec: the reads issued by k-hop expansion — one
frontier expansion per breadth-first level, mirroring `khopLoop`. -/
def khopStmts (g : Store) : Nat → List String → List String → Nat → List Stmt
  | 0, _, _, _ => []
  | d+1, admitted, frontier, remaining =>
      let cands := sortCands (frontierCands g admitted frontier)
      let taken := (cands.take remaining).map Cand.id
      .expandFrontier frontier ::
        khopStmts g d (admitted ++ taken) taken (remaining - taken.length)

/-- Modelled from the spec: the full statement trace of a k-hop retrieve —
the seed lookup followed by the per-level expansions. -/
def khopRetrieveStmts (g : Store) (seeds : List String) (depth budget : Nat) :
    List Stmt :=
  let s0 := existingSeeds g seeds
  let admitted0 := s0.take budget
  .lookupNodes seeds ::
    khopStmts g depth admitted0 admitted0 (budget - admitted0.length)

/-- Modelled from the spec: the statement trace of a semantic retrieve — the
scoring scan, then k-hop from the selected seeds. -/
def semanticRetrieveStmts (g : Store) (score : Node → ℚ)
    (topN depth budget : Nat) : List Stmt :=
  .scanNodesForScoring ::
    khopRetrieveStmts g (semanticSeeds g score topN) depth budget

/-- Modelled from the spec: the statement trace of a path-mode retrieve. -/
def pathRetrieveStmts (a b : String) (depth : Nat) : List Stmt :=
  [.shortestPathSearch a b depth]

theorem stmtEffect_read (s : Store) (stmt : Stmt) (h : isReadStmt stmt = true) :
    stmtEffect s stmt = s := by
  cases stmt <;> first | rfl | simp [isReadStmt] at h

theorem runStmts_reads (stmts : List Stmt) :
    ∀ s, (∀ stmt ∈ stmts, isReadStmt stmt = true) → runStmts stmts s = s := by
  induction stmts with
  | nil => intro s _; rfl
  | cons stmt rest ih =>
      intro s hall
      show runStmts rest (stmtEffect s stmt) = s
      rw [stmtEffect_read s stmt (hall stmt (by simp))]
      exact ih s (fun x hx => hall x (by simp [hx]))

theorem khopStmts_read (g : Store) (d : Nat) :
    ∀ (admitted frontier : List String) (remaining : Nat),
    ∀ stmt ∈ khopStmts g d admitted frontier remaining, isReadStmt stmt = true := by
  induction d with
  | zero => intro _ _ _ stmt h; simp [khopStmts] at h
  | succ d ih =>
      intro admitted frontier remaining stmt h
      simp only [khopStmts, List.mem_cons] at h
      rcases h with rfl | h2
      · rfl
      · exact ih _ _ _ stmt h2

/-- C5: Every retrieval operation (all three modes, and the read queries of
the API facade) leaves the graph state unchanged: running its statement
trace under the store semantics — in which the ingestion engine's MERGE
statements do change the store — returns the store as it was. -/
theorem retrieval_read_only (g s : Store) (status tag projectId : String)
    (seeds : List String) (score : Node → ℚ) (a b : String)
    (topN depth budget : Nat) :
    runStmts (facadeReadStmts status tag projectId) s = s ∧
    runStmts (khopRetrieveStmts g seeds depth budget) s = s ∧
    runStmts (semanticRetrieveStmts g score topN depth budget) s = s ∧
    runStmts (pathRetrieveStmts a b depth) s = s := by
  have hkhop : ∀ seeds2, ∀ stmt ∈ khopRetrieveStmts g seeds2 depth budget,
      isReadStmt stmt = true := by
    intro seeds2 stmt h
    simp only [khopRetrieveStmts, List.mem_cons] at h
    rcases h with rfl | h2
    · rfl
    · exact khopStmts_read g depth _ _ _ stmt h2
  refine ⟨?_, ?_, ?_, ?_⟩
  · apply runStmts_reads
    intro stmt h
    simp only [facadeReadStmts, List.mem_cons, List.not_mem_nil, or_false] at h
    rcases h with rfl | rfl | rfl | rfl <;> rfl
  · exact runStmts_reads _ s (hkhop seeds)
  · apply runStmts_reads
    intro stmt h
    simp only [semanticRetrieveStmts, List.mem_cons] at h
    rcases h with rfl | h2
    · rfl
    · exact hkhop (semanticSeeds g score topN) stmt h2
  · apply runStmts_reads
    intro stmt h
    simp only [pathRetrieveStmts, List.mem_cons, List.not_mem_nil, or_false] at h
    rcases h with rfl
    rfl

/-- A schema-level statement of the migration/schema Cypher files. -/
inductive SchemaStmt where
  | createConstraint (name : String) (ifNotExists : Bool)
  | createIndex (name : String) (ifNotExists : Bool)
  | showInfo
deriving Repr, DecidableEq

/-- The schema state: the names of the existing constraints and indexes. -/
structure SchemaState where
  constraints : List String
  indexes : List String
deriving Repr, DecidableEq

/-- Executing one schema statement: creating an existing constraint/index
fails unless the statement carries IF NOT EXISTS, in which case it is a
no-op; SHOW statements only read. -/
def execSchemaStmt (st : SchemaState) : SchemaStmt → Except String SchemaState
  | .createConstraint n ine =>
      if st.constraints.contains n then
        if ine then .ok st else .error ("constraint already exists: " ++ n)
      else .ok { st with constraints := st.constraints ++ [n] }
  | .createIndex n ine =>
      if st.indexes.contains n then
        if ine then .ok st else .error ("index already exists: " ++ n)
      else .ok { st with indexes := st.indexes ++ [n] }
  | .showInfo => .ok st

def runSchema (st : SchemaState) : List SchemaStmt → Except String SchemaState
  | [] => .ok st
  | stmt :: rest =>
      match execSchemaStmt st stmt with
      | .ok st2 => runSchema st2 rest
      | .error e => .error e

def usesIfNotExists : SchemaStmt → Bool
  | .createConstraint _ ine => ine
  | .createIndex _ ine => ine
  | .showInfo => true

/-- Embedding of `ops/migrations/001_initial_schema.cypher`: two constraints,
two indexes — each with IF NOT EXISTS — and the two verification SHOW
statements. -/
def migration001 : List SchemaStmt :=
  [.createConstraint "project_name" true,
   .createConstraint "project_id" true,
   .createIndex "project_status" true,
   .createIndex "entity_tags" true,
   .showInfo,
   .showInfo]

/-- Embedding of `init-schema.cypher` (the initial schema): every constraint
and index creation in the file, each with IF NOT EXISTS. -/
def initSchema : List SchemaStmt :=
  [.createConstraint "project_name" true,
   .createConstraint "project_id" true,
   .createIndex "project_status" true,
   .createIndex "project_criticality" true,
   .createConstraint "config_name" true,
   .createIndex "config_type" true,
   .createConstraint "tool_name" true,
   .createIndex "tool_status" true,
   .createConstraint "pattern_name" true,
   .createIndex "pattern_tags" true,
   .createConstraint "doc_name" true,
   .createIndex "faq_content" true,
   .createIndex "entity_last_updated" true,
   .createIndex "entity_created_at" true,
   .createIndex "entity_tags" true]

/-- The object a schema statement creates is present in the state. -/
def stmtEstablished (st : SchemaState) : SchemaStmt → Prop
  | .createConstraint n _ => n ∈ st.constraints
  | .createIndex n _ => n ∈ st.indexes
  | .showInfo => True

theorem stmtEstablished_mono (st st2 : SchemaState) (stmt : SchemaStmt)
    (hc : st.constraints ⊆ st2.constraints) (hi : st.indexes ⊆ st2.indexes)
    (h : stmtEstablished st stmt) : stmtEstablished st2 stmt := by
  cases stmt with
  | createConstraint n ine => exact hc h
  | createIndex n ine => exact hi h
  | showInfo => trivial

theorem execSchemaStmt_ine (st : SchemaState) (stmt : SchemaStmt)
    (h : usesIfNotExists stmt = true) :
    ∃ st2, execSchemaStmt st stmt = .ok st2 ∧
      st.constraints ⊆ st2.constraints ∧ st.indexes ⊆ st2.indexes ∧
      stmtEstablished st2 stmt := by
  cases stmt with
  | createConstraint n ine =>
      simp only [usesIfNotExists] at h
      subst h
      by_cases hc : st.constraints.contains n = true
      · refine ⟨st, ?_, fun _ hx => hx, fun _ hx => hx, contains_mem hc⟩
        show (if st.constraints.contains n = true then Except.ok st
              else Except.ok { st with constraints := st.constraints ++ [n] } :
              Except String SchemaState) = Except.ok st
        rw [if_pos hc]
      · refine ⟨{ st with constraints := st.constraints ++ [n] }, ?_, ?_,
          fun _ hx => hx, ?_⟩
        · show (if st.constraints.contains n = true then Except.ok st
                else Except.ok { st with constraints := st.constraints ++ [n] } :
                Except String SchemaState) =
            Except.ok { st with constraints := st.constraints ++ [n] }
          rw [if_neg hc]
        · intro x hx; simp [hx]
        · show n ∈ st.constraints ++ [n]
          simp
  | createIndex n ine =>
      simp only [usesIfNotExists] at h
      subst h
      by_cases hc : st.indexes.contains n = true
      · refine ⟨st, ?_, fun _ hx => hx, fun _ hx => hx, contains_mem hc⟩
        show (if st.indexes.contains n = true then Except.ok st
              else Except.ok { st with indexes := st.indexes ++ [n] } :
              Except String SchemaState) = Except.ok st
        rw [if_pos hc]
      · refine ⟨{ st with indexes := st.indexes ++ [n] }, ?_, fun _ hx => hx,
          ?_, ?_⟩
        · show (if st.indexes.contains n = true then Except.ok st
                else Except.ok { st with indexes := st.indexes ++ [n] } :
                Except String SchemaState) =
            Except.ok { st with indexes := st.indexes ++ [n] }
          rw [if_neg hc]
        · intro x hx; simp [hx]
        · show n ∈ st.indexes ++ [n]
          simp
  | showInfo => exact ⟨st, rfl, fun _ hx => hx, fun _ hx => hx, trivial⟩

theorem execSchemaStmt_present (st : SchemaState) (stmt : SchemaStmt)
    (h : usesIfNotExists stmt = true) (hest : stmtEstablished st stmt) :
    execSchemaStmt st stmt = .ok st := by
  cases stmt with
  | createConstraint n ine =>
      simp only [usesIfNotExists] at h
      subst h
      have hc : st.constraints.contains n = true := List.elem_iff.mpr hest
      show (if st.constraints.contains n = true then Except.ok st
            else Except.ok { st with constraints := st.constraints ++ [n] } :
            Except String SchemaState) = Except.ok st
      rw [if_pos hc]
  | createIndex n ine =>
      simp only [usesIfNotExists] at h
      subst h
      have hc : st.indexes.contains n = true := List.elem_iff.mpr hest
      show (if st.indexes.contains n = true then Except.ok st
            else Except.ok { st with indexes := st.indexes ++ [n] } :
            Except String SchemaState) = Except.ok st
      rw [if_pos hc]
  | showInfo => rfl

theorem runSchema_ine (stmts : List SchemaStmt) :
    ∀ st, (∀ stmt ∈ stmts, usesIfNotExists stmt = true) →
    ∃ st2, runSchema st stmts = .ok st2 ∧
      st.constraints ⊆ st2.constraints ∧ st.indexes ⊆ st2.indexes ∧
      ∀ stmt ∈ stmts, stmtEstablished st2 stmt := by
  induction stmts with
  | nil =>
      intro st _
      exact ⟨st, rfl, fun _ hx => hx, fun _ hx => hx, by simp⟩
  | cons stmt rest ih =>
      intro st hall
      obtain ⟨st1, hexec, hc1, hi1, hest1⟩ :=
        execSchemaStmt_ine st stmt (hall stmt (by simp))
      obtain ⟨st2, hrun, hc2, hi2, hest2⟩ :=
        ih st1 (fun s hs => hall s (by simp [hs]))
      refine ⟨st2, ?_, fun x hx => hc2 (hc1 hx), fun x hx => hi2 (hi1 hx), ?_⟩
      · simp only [runSchema]
        rw [hexec]
        exact hrun
      · intro s hs
        rcases List.mem_cons.mp hs with rfl | hs2
        · exact stmtEstablished_mono st1 st2 s hc2 hi2 hest1
        · exact hest2 s hs2

theorem runSchema_present (stmts : List SchemaStmt) :
    ∀ st, (∀ stmt ∈ stmts, usesIfNotExists stmt = true) →
    (∀ stmt ∈ stmts, stmtEstablished st stmt) →
    runSchema st stmts = .ok st := by
  induction stmts with
  | nil => intro st _ _; rfl
  | cons stmt rest ih =>
      intro st hall hest
      have hx := execSchemaStmt_present st stmt (hall stmt (by simp))
        (hest stmt (by simp))
      simp only [runSchema]
      rw [hx]
      exact ih st (fun s hs => hall s (by simp [hs])) (fun s hs => hest s (by simp [hs]))

/-- C9: Applying the schema migration twice yields the same schema state as
applying it once: every constraint- and index-creating statement in
migration 001 and in the initial schema uses IF NOT EXISTS, so from any
starting schema state a run succeeds, and a re-application creates no new
constraint or index and fails on none that already exists. -/
theorem schema_migration_idempotent (st : SchemaState) :
    (∀ stmt ∈ migration001, usesIfNotExists stmt = true) ∧
    (∀ stmt ∈ initSchema, usesIfNotExists stmt = true) ∧
    (∃ st1, runSchema st migration001 = .ok st1 ∧
      runSchema st1 migration001 = .ok st1) ∧
    (∃ st2, runSchema st initSchema = .ok st2 ∧
      runSchema st2 initSchema = .ok st2) := by
  have hm : ∀ stmt ∈ migration001, usesIfNotExists stmt = true := by decide
  have hi : ∀ stmt ∈ initSchema, usesIfNotExists stmt = true := by decide
  obtain ⟨st1, hrun1, -, -, hest1⟩ := runSchema_ine migration001 st hm
  obtain ⟨st2, hrun2, -, -, hest2⟩ := runSchema_ine initSchema st hi
  exact ⟨hm, hi,
    ⟨st1, hrun1, runSchema_present migration001 st1 hm hest1⟩,
    ⟨st2, hrun2, runSchema_present initSchema st2 hi hest2⟩⟩

/-- The externally observable system state touched by `ops/restore.sh`. -/
structure SysState where
  neo4jRunning : Bool
  graphData : List String
  restoredFrom : Option String
deriving Repr, DecidableEq

/-- Embedding of `ops/restore.sh`: with no argument it prints usage and exits
with status 1; with a backup file it asks for confirmation and exits with
status 0 before touching anything unless the answer is exactly "yes"; only
then it stops Neo4j, wipes the data directory, extracts the backup and
restarts.  Returns the exit status and the final system state. -/
def restoreScript : Option String → String → SysState → Nat × SysState
  | none, _, st => (1, st)
  | some backupFile, confirm, st =>
      if confirm ≠ "yes" then (0, st)
      else
        let afterStop := { st with neo4jRunning := false }
        let afterWipe := { afterStop with graphData := [] }
        let afterExtract :=
          { afterWipe with
              graphData := ["restored:" ++ backupFile],
              restoredFrom := some backupFile }
        let afterStart := { afterExtract with neo4jRunning := true }
        (0, afterStart)

/-- C10: The restore script modifies nothing unless explicitly confirmed:
with no argument it exits with status 1 without touching the database, and
with a backup file but any confirmation input other than the exact string
"yes" it exits with status 0 before stopping Neo4j or deleting any data,
leaving the graph data directory unchanged. -/
theorem restore_guarded (f confirm confirm2 : String) (st st2 : SysState)
    (h : confirm2 ≠ "yes") :
    restoreScript none confirm st = (1, st) ∧
    restoreScript (some f) confirm2 st2 = (0, st2) := by
  constructor
  · rfl
  · simp only [restoreScript]
    rw [if_pos h]

/-- Witness for C10 at a concrete state and inputs. -/
theorem restore_guarded_witness :
    ("no" ≠ "yes") ∧
    (restoreScript none "whatever" ⟨true, ["graph.db"], none⟩ =
        (1, ⟨true, ["graph.db"], none⟩) ∧
     restoreScript (some "backups/kg-20251105.tar.gz") "no"
        ⟨true, ["graph.db"], none⟩ = (0, ⟨true, ["graph.db"], none⟩)) :=
  ⟨by decide,
   restore_guarded "backups/kg-20251105.tar.gz" "whatever" "no"
     ⟨true, ["graph.db"], none⟩ ⟨true, ["graph.db"], none⟩ (by decide)⟩

end KG
